import Mathlib

/-!
Verification development for the MAAS node-views excerpt
(`src/maasserver/views/nodes.py`) and two schema migrations
(`0240_ownerdata_key_fix.py`, `0245_bmc_power_parameters_index_hash.py`).

Pure Python string and list manipulation is embedded directly as Lean
functions over `String` and `List`.  Django ORM querysets are embedded as
Lean lists with explicit filtering and sorting; database rows become
structures.  External collaborators that are not part of the excerpt
(permission backends, the `AcquireNodeForm` validator, the MAC vendor
database) are taken as parameters or modelled from the specification, as
noted on each definition.
-/

/- ---------------------------------------------------------------------
   String helpers mirroring the Python primitives used by the views code.
   --------------------------------------------------------------------- -/

/-- Embedding of Python `str.split()` (no separator argument): split on runs
of whitespace, discarding empty words.  Worker over the character list; the
accumulator holds the current word reversed. -/
def pySplitAux : List Char → List Char → List String
  | [], acc => if acc.isEmpty then [] else [⟨acc.reverse⟩]
  | c :: cs, acc =>
    if c.isWhitespace then
      if acc.isEmpty then pySplitAux cs [] else ⟨acc.reverse⟩ :: pySplitAux cs []
    else pySplitAux cs (c :: acc)

/-- Embedding of Python `str.split()` with no arguments. -/
def pySplit (s : String) : List String := pySplitAux s.toList []

/-- Worker for `split1Eq`: scan for the first `=`; everything before it is
one part, everything after it (verbatim, further `=` included) the other. -/
def split1EqAux : List Char → List Char → List String
  | [], acc => [⟨acc.reverse⟩]
  | c :: cs, acc => if c = '=' then [⟨acc.reverse⟩, ⟨cs⟩] else split1EqAux cs (c :: acc)

/-- Embedding of Python `word.split("=", 1)`: at most one split, at the
first `=`. -/
def split1Eq (w : String) : List String := split1EqAux w.toList []

theorem split1EqAux_shape (cs acc : List Char) :
    (∃ k, split1EqAux cs acc = [k]) ∨ (∃ k v, split1EqAux cs acc = [k, v]) := by
  induction cs generalizing acc with
  | nil => exact Or.inl ⟨⟨acc.reverse⟩, rfl⟩
  | cons c cs ih =>
    by_cases h : c = '='
    · exact Or.inr ⟨⟨acc.reverse⟩, ⟨cs⟩, by simp [split1EqAux, h]⟩
    · simpa [split1EqAux, h] using ih (c :: acc)

theorem split1Eq_shape (w : String) :
    (∃ k, split1Eq w = [k]) ∨ (∃ k v, split1Eq w = [k, v]) :=
  split1EqAux_shape w.toList []

/- ---------------------------------------------------------------------
   C3: `_parse_constraints` (src/maasserver/views/nodes.py, lines 104-121).
   --------------------------------------------------------------------- -/

/-- Embedding of `_parse_constraints` from `nodes.py`.  The Python builds a
list `constraints` of `key=value` strings and joins them into a `QueryDict`;
the embedding returns that list of constraint strings.  Each word of the
query is split at the first `=`; a word with no `=` contributes the empty
constraint `key=`; a word whose value is exactly `any` is discarded. -/
def _parse_constraints (query_string : String) : List String :=
  (pySplit query_string).foldl
    (fun constraints word =>
      let parts := split1Eq word
      if parts.length ≠ 2 then
        constraints ++ [parts.headD "" ++ "="]
      else if parts.getD 1 "" ≠ "any" then
        constraints ++ [parts.headD "" ++ "=" ++ parts.getD 1 ""]
      else constraints)
    []

/-- Statement of C3's per-token rule in the specification's words: a bare
token `key` with no `=` becomes the kept empty-value constraint `key=`; a
token `key=value` is discarded when the value is exactly `any` and kept
otherwise. -/
def specTokenRule (w : String) : Option String :=
  match split1Eq w with
  | [k] => some (k ++ "=")
  | [k, v] => if v = "any" then none else some (k ++ "=" ++ v)
  | _ => none

/-- Statement of C3's whole-query rule in the specification's words: split
on whitespace and apply the per-token rule to each token. -/
def specParse (q : String) : List String := (pySplit q).filterMap specTokenRule

theorem parse_constraints_step (acc : List String) (w : String) :
    (let parts := split1Eq w
      if parts.length ≠ 2 then
        acc ++ [parts.headD "" ++ "="]
      else if parts.getD 1 "" ≠ "any" then
        acc ++ [parts.headD "" ++ "=" ++ parts.getD 1 ""]
      else acc) = acc ++ (specTokenRule w).toList := by
  rcases split1Eq_shape w with ⟨k, hk⟩ | ⟨k, v, hkv⟩
  · simp [hk, specTokenRule]
  · by_cases hany : v = "any" <;> simp [hkv, specTokenRule, hany]

theorem parse_constraints_foldl (ws : List String) (acc : List String) :
    ws.foldl
      (fun constraints word =>
        let parts := split1Eq word
        if parts.length ≠ 2 then
          constraints ++ [parts.headD "" ++ "="]
        else if parts.getD 1 "" ≠ "any" then
          constraints ++ [parts.headD "" ++ "=" ++ parts.getD 1 ""]
        else constraints)
      acc = acc ++ ws.filterMap specTokenRule := by
  induction ws generalizing acc with
  | nil => simp
  | cons w ws ih =>
    rw [List.foldl_cons, ih, parse_constraints_step]
    rcases h : specTokenRule w with _ | t <;> simp [List.filterMap_cons, h]

/-- C3: for every query string, `_parse_constraints` splits on whitespace,
keeps a bare token `key` as the empty-value constraint `key=`, keeps every
`key=value` token whose value is not exactly `any`, and discards every token
whose value is exactly `any`; in particular `"zone=rack1 memory=any arch="`
parses to the constraints `zone=rack1` and `arch=`, the `memory` token being
discarded. -/
theorem parse_constraints_correct :
    (∀ q, _parse_constraints q = specParse q) ∧
    _parse_constraints "zone=rack1 memory=any arch=" = ["zone=rack1", "arch="] := by
  constructor
  · intro q
    unfold _parse_constraints specParse
    exact parse_constraints_foldl _ []
  · decide

/- ---------------------------------------------------------------------
   C1: `message_from_form_stats` (src/maasserver/views/nodes.py, 124-157).
   --------------------------------------------------------------------- -/

/-- Pair of a singular and a plural message template, each taking the
referent string (substituted for `%s`) and the count (substituted for `%d`). -/
def Templates := (String → Nat → String) × (String → Nat → String)

/-- Embedding of `done_templates` from `nodes.py`. -/
def done_templates : Templates :=
  (fun s n => s ++ " was successfully performed on " ++ toString n ++ " node.",
   fun s n => s ++ " was successfully performed on " ++ toString n ++ " nodes.")

/-- Embedding of `not_actionable_templates` from `nodes.py`. -/
def not_actionable_templates : Templates :=
  (fun s n =>
    s ++ " could not be performed on " ++ toString n ++
      " node because its state does not allow that action.",
   fun s n =>
    s ++ " could not be performed on " ++ toString n ++
      " nodes because their state does not allow that action.")

/-- Embedding of `not_permitted_templates` from `nodes.py`. -/
def not_permitted_templates : Templates :=
  (fun s n =>
    s ++ " could not be performed on " ++ toString n ++
      " node because that action is not permitted on that node.",
   fun s n =>
    s ++ " could not be performed on " ++ toString n ++
      " nodes because that action is not permitted on these nodes.")

/-- Embedding of `message_from_form_stats` from `nodes.py`.  The action is
represented by its `display_bulk` string.  The fold carries the message
sentences accumulated so far together with the current `action_name`
referent, which is overridden to `It` once a first sentence is emitted. -/
def message_from_form_stats (display_bulk : String)
    (done not_actionable not_permitted : Nat) : String :=
  let number_message :=
    [(done, done_templates), (not_actionable, not_actionable_templates),
     (not_permitted, not_permitted_templates)]
  let result := number_message.foldl
    (fun (st : List String × String) (nm : Nat × Templates) =>
      if nm.1 ≠ 0 then
        let message_template := if nm.1 = 1 then nm.2.1 else nm.2.2
        (st.1 ++ [message_template st.2 nm.1], "It")
      else st)
    ([], "The action \"" ++ display_bulk ++ "\"")
  String.intercalate " " result.1

/-- Statement of C1's sentence rule in the specification's words: one
sentence per nonzero count in the fixed order done, not-actionable,
not-permitted; singular template exactly when the count is 1; the first
sentence names the action and every later sentence says `It`. -/
def specSentences (display_bulk : String)
    (done not_actionable not_permitted : Nat) : List String :=
  let nonzero :=
    ([(done, done_templates), (not_actionable, not_actionable_templates),
      (not_permitted, not_permitted_templates)].filter (fun p => p.1 ≠ 0))
  nonzero.enum.map
    (fun (p : Nat × (Nat × Templates)) =>
      let referent :=
        if p.1 = 0 then "The action \"" ++ display_bulk ++ "\"" else "It"
      let template := if p.2.1 = 1 then p.2.2.1 else p.2.2.2
      template referent p.2.1)

/-- C1: for every action and counts, `message_from_form_stats` emits one
sentence per nonzero count in the fixed order done, not-actionable,
not-permitted, singular exactly when the count is 1, with the first emitted
sentence naming the action and later ones saying `It`; in particular counts
(2, 1, 0) for action "Power on" produce exactly the specified message. -/
theorem message_from_form_stats_correct :
    (∀ a done na np, message_from_form_stats a done na np =
      String.intercalate " " (specSentences a done na np)) ∧
    message_from_form_stats "Power on" 2 1 0 =
      "The action \"Power on\" was successfully performed on 2 nodes. " ++
        "It could not be performed on 1 node because its state does not allow that action." := by
  constructor
  · intro a done na np
    by_cases hd : done = 0 <;> by_cases hna : na = 0 <;> by_cases hnp : np = 0 <;>
      simp [message_from_form_stats, specSentences, hd, hna, hnp,
        List.enum, String.intercalate, List.intersperse]
  · decide

/- ---------------------------------------------------------------------
   Data model: node statuses, permissions, nodes.
   --------------------------------------------------------------------- -/

/-- Modelled from the spec: the node lifecycle status enum
(`maasserver.enum.NODE_STATUS` is outside the excerpt).  The spec lists at
minimum NEW, COMMISSIONING, FAILED_COMMISSIONING, READY, ALLOCATED,
DEPLOYING, DEPLOYED, FAILED_DEPLOYMENT, RELEASING, BROKEN. -/
inductive NODE_STATUS where
  | NEW
  | COMMISSIONING
  | FAILED_COMMISSIONING
  | READY
  | ALLOCATED
  | DEPLOYING
  | DEPLOYED
  | FAILED_DEPLOYMENT
  | RELEASING
  | BROKEN
deriving DecidableEq, Repr

/-- Modelled from the spec: the three permission levels of
`maasserver.enum.NODE_PERMISSION` (VIEW, EDIT, ADMIN). -/
inductive NODE_PERMISSION where
  | VIEW
  | EDIT
  | ADMIN
deriving DecidableEq, Repr

/-- Node record with the fields the verified views read: the stable
external identifier and the lifecycle status. -/
structure Node where
  system_id : String
  status : NODE_STATUS
deriving DecidableEq, Repr

/-- Error outcomes of a node-fetching view helper: HTTP 404 when no such
node exists, PermissionDenied (HTTP Forbidden) otherwise. -/
inductive ViewError where
  | http404
  | permissionDenied
deriving DecidableEq, Repr

/-- Modelled from the spec: `Node.objects.get_node_or_404(system_id, user,
perm)` (outside the excerpt).  It looks the node up by `system_id` — 404
when absent — and then consults the authorization source, raising
PermissionDenied when the actor lacks the requested permission level on the
node.  The authorization source is the parameter `hasPerm`, and `db` is the
node table. -/
def get_node_or_404 (hasPerm : NODE_PERMISSION → Node → Bool) (db : List Node)
    (system_id : String) (perm : NODE_PERMISSION) : Except ViewError Node :=
  match db.find? (fun n => n.system_id = system_id) with
  | none => .error .http404
  | some node => if hasPerm perm node then .ok node else .error .permissionDenied

/-- Embedding of `NodeDelete.get_object` from `nodes.py` (lines 688-695):
fetch the node with ADMIN permission, then refuse deletion of an ALLOCATED
node by raising PermissionDenied. -/
def NodeDelete.get_object (hasPerm : NODE_PERMISSION → Node → Bool)
    (db : List Node) (system_id : String) : Except ViewError Node :=
  match get_node_or_404 hasPerm db system_id .ADMIN with
  | .error e => .error e
  | .ok node =>
    if node.status = NODE_STATUS.ALLOCATED then .error .permissionDenied
    else .ok node

/-- C2: for every node whose status is ALLOCATED, `NodeDelete.get_object`
yields PermissionDenied for every authorization source and hence for every
permission level of the actor, ADMIN included; an allocated node is never
returned for deletion. -/
theorem node_delete_allocated_denied
    (hasPerm : NODE_PERMISSION → Node → Bool) (db : List Node)
    (system_id : String) (node : Node)
    (hfind : db.find? (fun n => n.system_id = system_id) = some node)
    (halloc : node.status = NODE_STATUS.ALLOCATED) :
    NodeDelete.get_object hasPerm db system_id = .error .permissionDenied := by
  unfold NodeDelete.get_object get_node_or_404
  rw [hfind]
  by_cases hp : hasPerm .ADMIN node = true <;> simp [hp, halloc]

/-- Witness for C2 at a concrete allocated node, with an authorization
source granting every permission (an ADMIN actor). -/
theorem node_delete_allocated_denied_witness :
    NodeDelete.get_object (fun _ _ => true) [⟨"n1", NODE_STATUS.ALLOCATED⟩] "n1" =
      .error .permissionDenied :=
  node_delete_allocated_denied (fun _ _ => true) [⟨"n1", NODE_STATUS.ALLOCATED⟩]
    "n1" ⟨"n1", NODE_STATUS.ALLOCATED⟩ (by decide) rfl

/- ---------------------------------------------------------------------
   C4: `NodeListView._constrain_nodes` (src/maasserver/views/nodes.py,
   316-336).
   --------------------------------------------------------------------- -/

/-- Modelled from the spec: the strict validating form
(`AcquireNodeForm.Strict` with its juju field aliasing, outside the
excerpt).  Given the parsed constraint data it either validates and yields
a queryable predicate over nodes, or rejects with a per-field error list
(`form.errors.items()`). -/
def AcquireFormValidator :=
  List String → Except (List (String × List String)) (Node → Bool)

/-- Embedding of the `query_error` formatting of `_constrain_nodes`:
`', '.join(["%s: %s" % (field, ', '.join(errors)) ...])`. -/
def format_query_error (errors : List (String × List String)) : String :=
  String.intercalate ", "
    (errors.map (fun fe => fe.1 ++ ": " ++ String.intercalate ", " fe.2))

/-- Outcome of constraining a node listing: the resulting node set and the
`query_error` attribute set on the view. -/
structure ConstrainOutcome where
  nodes : List Node
  query_error : Option String

/-- Embedding of `NodeListView._constrain_nodes` from `nodes.py`: parse the
user query, hand it to the strict form; on success return the filtered
subset, on validation failure set `query_error` and return
`Node.objects.none()`, the empty set. -/
def NodeListView._constrain_nodes (validate : AcquireFormValidator)
    (query : String) (nodes_query : List Node) : ConstrainOutcome :=
  let data := _parse_constraints query
  match validate data with
  | .ok pred => ⟨nodes_query.filter pred, none⟩
  | .error errors => ⟨[], some (format_query_error errors)⟩

/-- C4: node filtering fails closed.  Whenever the strict form rejects the
parsed query, `_constrain_nodes` returns the empty node set and records the
human-readable per-field error list; whenever the form accepts it, it
returns exactly the filtered subset of the input with no error recorded. -/
theorem constrain_nodes_fail_closed (validate : AcquireFormValidator)
    (query : String) (nodes_query : List Node) :
    (∀ errors, validate (_parse_constraints query) = .error errors →
      NodeListView._constrain_nodes validate query nodes_query =
        ⟨[], some (format_query_error errors)⟩) ∧
    (∀ pred, validate (_parse_constraints query) = .ok pred →
      NodeListView._constrain_nodes validate query nodes_query =
        ⟨nodes_query.filter pred, none⟩ ∧
      (NodeListView._constrain_nodes validate query nodes_query).nodes ⊆
        nodes_query) := by
  constructor
  · intro errors herr
    simp only [NodeListView._constrain_nodes, herr]
  · intro pred hok
    refine ⟨?_, ?_⟩
    · simp only [NodeListView._constrain_nodes, hok]
    · simp only [NodeListView._constrain_nodes, hok]
      exact fun a ha => List.mem_of_mem_filter ha

/-- Witness for C4 at a concrete rejecting validator and a concrete
accepting validator. -/
theorem constrain_nodes_fail_closed_witness :
    NodeListView._constrain_nodes (fun _ => .error [("mem", ["Invalid memory"])])
        "mem=x" [⟨"n1", NODE_STATUS.READY⟩] =
      ⟨[], some "mem: Invalid memory"⟩ ∧
    NodeListView._constrain_nodes (fun _ => .ok (fun _ => false))
        "mem=x" [⟨"n1", NODE_STATUS.READY⟩] =
      ⟨[], none⟩ := by
  constructor
  · have h :=
      (constrain_nodes_fail_closed (fun _ => .error [("mem", ["Invalid memory"])])
        "mem=x" [⟨"n1", NODE_STATUS.READY⟩]).1 [("mem", ["Invalid memory"])] rfl
    rw [h]
    rfl
  · have h :=
      (constrain_nodes_fail_closed (fun _ => .ok (fun _ => false))
        "mem=x" [⟨"n1", NODE_STATUS.READY⟩]).2 (fun _ => false) rfl
    rw [h.1]
    rfl

/- ---------------------------------------------------------------------
   C8: `configure_macs` (src/maasserver/views/nodes.py, 198-216).
   --------------------------------------------------------------------- -/

/-- MAC address record: the hardware address and its creation timestamp. -/
structure MACAddress where
  mac_address : String
  created : Nat
deriving DecidableEq, Repr

/-- Attributes `configure_macs` sets on a node. -/
structure NodeMacView where
  primary_mac : Option String
  primary_mac_vendor : Option String
  extra_macs : List String
deriving DecidableEq, Repr

/-- Embedding of the per-node body of `configure_macs` from `nodes.py`: the
node's `macaddress_set` is sorted by `created` (Python `sorted`, a stable
ascending sort), rendered to address strings; an empty set yields `None`
primary and vendor and no extras, otherwise the first sorted address is
primary and the rest are extras.  `get_vendor_for_mac` consults the
external `netaddr` OUI registry, so the vendor lookup is the parameter
`get_vendor`. -/
def configure_macs (get_vendor : String → String)
    (macaddress_set : List MACAddress) : NodeMacView :=
  let macs := macaddress_set.mergeSort (fun a b => a.created ≤ b.created)
  let macs := macs.map (fun mac => mac.mac_address)
  match macs with
  | [] => ⟨none, none, []⟩
  | m :: rest => ⟨some m, some (get_vendor m), rest⟩

/-- C8: for every node, `configure_macs` leaves primary and vendor `None`
with no extras when the node has no MAC addresses; otherwise the primary is
a MAC of earliest creation timestamp and the extras are exactly the
remaining MACs in ascending creation order. -/
theorem configure_macs_correct (get_vendor : String → String)
    (macs : List MACAddress) :
    (macs = [] → configure_macs get_vendor macs = ⟨none, none, []⟩) ∧
    (macs ≠ [] → ∃ p ps,
      configure_macs get_vendor macs =
        ⟨some p.mac_address, some (get_vendor p.mac_address),
          ps.map (fun m => m.mac_address)⟩ ∧
      (p :: ps).Perm macs ∧
      List.Pairwise (fun a b => a.created ≤ b.created) (p :: ps) ∧
      ∀ m ∈ macs, p.created ≤ m.created) := by
  constructor
  · intro h
    subst h
    simp [configure_macs]
  · intro hne
    have htrans : ∀ (a b c : MACAddress),
        (decide (a.created ≤ b.created)) = true →
        (decide (b.created ≤ c.created)) = true →
        (decide (a.created ≤ c.created)) = true := by
      intro a b c hab hbc
      simp only [decide_eq_true_eq] at *
      omega
    have htot : ∀ (a b : MACAddress),
        ((decide (a.created ≤ b.created)) || (decide (b.created ≤ a.created)))
          = true := by
      intro a b
      simpa using Nat.le_total a.created b.created
    have hperm := List.mergeSort_perm macs (fun a b => a.created ≤ b.created)
    have hsorted := List.sorted_mergeSort htrans htot macs
    rcases hs : macs.mergeSort (fun a b => a.created ≤ b.created) with _ | ⟨p, ps⟩
    · rw [hs] at hperm
      exact absurd hperm.symm.eq_nil hne
    · rw [hs] at hperm hsorted
      have hsorted' :
          List.Pairwise (fun a b : MACAddress => a.created ≤ b.created)
            (p :: ps) := by
        refine hsorted.imp ?_
        intro a b h
        exact of_decide_eq_true h
      refine ⟨p, ps, ?_, hperm, hsorted', ?_⟩
      · simp only [configure_macs, hs]
        rfl
      · intro m hm
        have hm' : m ∈ p :: ps := hperm.mem_iff.mpr hm
        rcases List.mem_cons.mp hm' with heq | hmem
        · subst heq
          exact Nat.le_refl _
        · exact (List.pairwise_cons.mp hsorted').1 m hmem

/-- Witness for C8 at the empty MAC set and at a concrete two-element MAC
set whose creation order differs from its listing order. -/
theorem configure_macs_correct_witness :
    configure_macs (fun _ => "Unknown Vendor") [] = ⟨none, none, []⟩ ∧
    (∃ (p : MACAddress) (ps : List MACAddress),
      configure_macs (fun _ => "Unknown Vendor")
          [⟨"aa:aa:aa:aa:aa:aa", 5⟩, ⟨"bb:bb:bb:bb:bb:bb", 3⟩] =
        ⟨some p.mac_address, some ((fun _ => "Unknown Vendor") p.mac_address),
          ps.map (fun m => m.mac_address)⟩ ∧
      (p :: ps).Perm [⟨"aa:aa:aa:aa:aa:aa", 5⟩, ⟨"bb:bb:bb:bb:bb:bb", 3⟩] ∧
      List.Pairwise (fun a b => a.created ≤ b.created) (p :: ps) ∧
      ∀ m ∈ ([⟨"aa:aa:aa:aa:aa:aa", 5⟩, ⟨"bb:bb:bb:bb:bb:bb", 3⟩] :
          List MACAddress), p.created ≤ m.created) :=
  ⟨(configure_macs_correct (fun _ => "Unknown Vendor") []).1 rfl,
   (configure_macs_correct (fun _ => "Unknown Vendor")
      [⟨"aa:aa:aa:aa:aa:aa", 5⟩, ⟨"bb:bb:bb:bb:bb:bb", 3⟩]).2 (by decide)⟩

/- ---------------------------------------------------------------------
   C9, C10: node event listings (src/maasserver/views/nodes.py, 519-520,
   607-613, 639-641).
   --------------------------------------------------------------------- -/

/-- Event record: primary key `id` (monotonically assigned, so newest-first
is descending `id`), nullable node reference (by `system_id`), and the
severity level of the event's type. -/
structure Event where
  id : Nat
  node : Option String
  level : Nat
deriving DecidableEq, Repr

/-- Embedding of the Python `logging.DEBUG` constant. -/
def logging.DEBUG : Nat := 10

/-- Embedding of `NodeEventListView.get_queryset` from `nodes.py`:
`Event.objects.filter(node=node).order_by('-id')` — the node's events,
descending by `id`. -/
def NodeEventListView.get_queryset (events : List Event) (node : String) :
    List Event :=
  (events.filter (fun e => e.node = some node)).mergeSort
    (fun a b => b.id ≤ a.id)

/-- Embedding of `NodeView.number_of_events_shown` from `nodes.py`. -/
def NodeView.number_of_events_shown : Nat := 5

/-- Embedding of the `event_list` computed by `NodeView.get_context_data`:
the node's events, DEBUG-level ones excluded, descending by `id`, truncated
to `number_of_events_shown`. -/
def NodeView.event_list (events : List Event) (node : String) : List Event :=
  (((events.filter (fun e => e.node = some node)).filter
      (fun e => ¬ e.level = logging.DEBUG)).mergeSort
    (fun a b => b.id ≤ a.id)).take NodeView.number_of_events_shown

/-- Embedding of the `event_count` computed by `NodeView.get_context_data`:
`Event.objects.filter(node=node).count()`, with no level exclusion. -/
def NodeView.event_count (events : List Event) (node : String) : Nat :=
  (events.filter (fun e => e.node = some node)).length

theorem events_le_trans (a b c : Event) :
    (decide (b.id ≤ a.id)) = true → (decide (c.id ≤ b.id)) = true →
    (decide (c.id ≤ a.id)) = true := by
  intro hab hbc
  simp only [decide_eq_true_eq] at *
  omega

theorem events_le_total (a b : Event) :
    ((decide (b.id ≤ a.id)) || (decide (a.id ≤ b.id))) = true := by
  simpa using Nat.le_total b.id a.id

/-- C9: for every node, `NodeEventListView.get_queryset` returns exactly
that node's events ordered newest-first (descending `id`), and the
`event_list` drawn by `NodeView.get_context_data` is likewise in
descending-`id` order. -/
theorem node_events_newest_first (events : List Event) (node : String) :
    (NodeEventListView.get_queryset events node).Perm
      (events.filter (fun e => e.node = some node)) ∧
    List.Pairwise (fun a b => b.id ≤ a.id)
      (NodeEventListView.get_queryset events node) ∧
    List.Pairwise (fun a b => b.id ≤ a.id)
      (NodeView.event_list events node) := by
  refine ⟨List.mergeSort_perm _ _, ?_, ?_⟩
  · have h := List.sorted_mergeSort events_le_trans events_le_total
      (events.filter (fun e => e.node = some node))
    refine h.imp ?_
    intro a b hd
    exact of_decide_eq_true hd
  · have h := List.sorted_mergeSort events_le_trans events_le_total
      ((events.filter (fun e => e.node = some node)).filter
        (fun e => ¬ e.level = logging.DEBUG))
    have h' := h.sublist (List.take_sublist NodeView.number_of_events_shown _)
    refine h'.imp ?_
    intro a b hd
    exact of_decide_eq_true hd

/-- C10: for every node, the `event_list` placed in `NodeView`'s context has
at most 5 entries, none of DEBUG level, while `event_count` counts all of
the node's events; on a concrete node with six DEBUG events the count is 6,
exceeding both 5 and the zero listed events. -/
theorem node_view_event_context :
    (∀ events node, (NodeView.event_list events node).length ≤ 5 ∧
      (∀ e ∈ NodeView.event_list events node,
        e.level ≠ logging.DEBUG ∧ e.node = some node) ∧
      (NodeView.event_list events node).length ≤
        NodeView.event_count events node) ∧
    (NodeView.event_count
        ((List.range 6).map (fun i => ⟨i, some "n1", logging.DEBUG⟩)) "n1" = 6 ∧
      NodeView.event_list
        ((List.range 6).map (fun i => ⟨i, some "n1", logging.DEBUG⟩)) "n1" = [] ∧
      6 > 5) := by
  constructor
  · intro events node
    refine ⟨?_, ?_, ?_⟩
    · calc (NodeView.event_list events node).length
          ≤ NodeView.number_of_events_shown := by
            unfold NodeView.event_list
            exact List.length_take_le _ _
        _ = 5 := rfl
    · intro e he
      have he' := (List.take_sublist NodeView.number_of_events_shown _).mem he
      have he'' := (List.mergeSort_perm _ _).mem_iff.mp he'
      have h1 := List.of_mem_filter he''
      have h2 := List.mem_of_mem_filter he''
      have h3 := List.of_mem_filter h2
      constructor
      · simpa using of_decide_eq_true h1
      · exact of_decide_eq_true h3
    · have h1 : (NodeView.event_list events node).length ≤
          (((events.filter (fun e => e.node = some node)).filter
            (fun e => ¬ e.level = logging.DEBUG)).mergeSort
            (fun a b => b.id ≤ a.id)).length := by
        unfold NodeView.event_list
        exact (List.take_sublist _ _).length_le
      rw [(List.mergeSort_perm _ _).length_eq] at h1
      refine le_trans h1 ?_
      refine le_trans (List.length_filter_le _ _) ?_
      unfold NodeView.event_count
      exact le_refl _
  · refine ⟨rfl, ?_, by omega⟩
    simp [NodeView.event_list, logging.DEBUG, List.range, List.range.loop]

/- ---------------------------------------------------------------------
   C5, C6: `fix_ownerdata_keys`
   (src/maasserver/migrations/maasserver/0240_ownerdata_key_fix.py).
   --------------------------------------------------------------------- -/

/-- Character class `\w` of the migration's regexes, modelled over ASCII:
letters, digits and underscore. -/
def wordChar (c : Char) : Bool := c.isAlphanum || c = '_'

/-- Character class `[\w.-]` of `^[\w.-]+$` and (complemented) of
`REPLACE_RE = [^\w.-]`. -/
def allowedChar (c : Char) : Bool := wordChar c || c = '.' || c = '-'

/-- Embedding of the match test `key__regex=r"^[\w.-]+$"`: at least one
character, all drawn from the allowed class. -/
def keyValid (k : String) : Bool := !k.toList.isEmpty && k.toList.all allowedChar

/-- Embedding of `REPLACE_RE.sub("_", key)`: every disallowed character is
replaced by an underscore. -/
def replace_sub (k : String) : String :=
  ⟨k.toList.map (fun c => if allowedChar c then c else '_')⟩

/-- The candidate key obtained from `k` by appending `n` underscores. -/
def addUnderscores (k : String) : Nat → String
  | 0 => k
  | n + 1 => addUnderscores (k ++ "_") n

/-- Fuelled worker for the `while new_key in node_keys: new_key += "_"`
loop of the migration. -/
def appendUntilFreeAux : Nat → String → List String → String
  | 0, k, _ => k
  | fuel + 1, k, used =>
    if k ∈ used then appendUntilFreeAux fuel (k ++ "_") used else k

/-- Embedding of the collision loop `while new_key in node_keys: new_key
+= "_"`.  Fuel `used.length + 1` always suffices: the candidates are
pairwise distinct (their lengths strictly increase), so among the first
`used.length + 1` of them at least one is absent from `used`. -/
def appendUntilFree (k : String) (used : List String) : String :=
  appendUntilFreeAux (used.length + 1) k used

/-- Owner-metadata row: the owning node and the metadata key. -/
structure OwnerData where
  node_id : Nat
  key : String
deriving DecidableEq, Repr

/-- Keys of the given node among the given owner-data rows.  Used both for
the migration's precomputed `existing_node_keys` and to state per-node
uniqueness. -/
def node_keys_of (entries : List OwnerData) (nid : Nat) : List String :=
  (entries.filter (fun e => e.node_id = nid)).map (fun e => e.key)

/-- Worker for `fix_ownerdata_keys`: walk the rows in order; rows whose key
matches `^[\w.-]+$` are excluded from the queryset and kept; for each other
row, the migration removes the original key from the node's key set,
rewrites it by `REPLACE_RE.sub` plus the collision loop, and adds the new
key back to the set.  The Python key sets are embedded as lists; with the
per-node keys distinct (the database's unique `(node, key)` constraint),
list `erase`/`cons` coincides with Python's `set.remove`/`add`. -/
def fix_ownerdata_keys_go (keysets : Nat → List String) :
    List OwnerData → List OwnerData
  | [] => []
  | e :: rest =>
    if keyValid e.key then e :: fix_ownerdata_keys_go keysets rest
    else
      let node_keys := (keysets e.node_id).erase e.key
      let new_key := appendUntilFree (replace_sub e.key) node_keys
      let keysets' := fun nid =>
        if nid = e.node_id then new_key :: node_keys else keysets nid
      ⟨e.node_id, new_key⟩ :: fix_ownerdata_keys_go keysets' rest

/-- Embedding of `fix_ownerdata_keys` from migration 0240: precompute each
node's key set from all rows, then rewrite every row whose key violates
`^[\w.-]+$`. -/
def fix_ownerdata_keys (entries : List OwnerData) : List OwnerData :=
  fix_ownerdata_keys_go (node_keys_of entries) entries

theorem addUnderscores_length (n : Nat) : ∀ k : String,
    (addUnderscores k n).length = k.length + n := by
  induction n with
  | zero => intro k; rfl
  | succ n ih =>
    intro k
    have h := ih (k ++ "_")
    rw [addUnderscores, h, String.length_append]
    have h1 : "_".length = 1 := rfl
    omega

theorem keyValid_append_underscore (k : String) (h : keyValid k = true) :
    keyValid (k ++ "_") = true := by
  simp only [keyValid, Bool.and_eq_true, List.all_eq_true,
    Bool.not_eq_true'] at h ⊢
  obtain ⟨h1, h2⟩ := h
  constructor
  · simp [String.toList, String.data_append]
  · intro c hc
    simp only [String.toList, String.data_append, List.mem_append] at hc
    rcases hc with hc | hc
    · exact h2 c hc
    · simp only [List.mem_singleton] at hc
      subst hc
      decide

theorem addUnderscores_valid (n : Nat) : ∀ k : String, keyValid k = true →
    keyValid (addUnderscores k n) = true := by
  induction n with
  | zero => intro k h; exact h
  | succ n ih =>
    intro k h
    rw [addUnderscores]
    exact ih (k ++ "_") (keyValid_append_underscore k h)

theorem replace_sub_valid (k : String) (h : k ≠ "") :
    keyValid (replace_sub k) = true := by
  obtain ⟨data⟩ := k
  have hdata : data ≠ [] := by
    intro hnil
    exact h (by rw [hnil])
  simp only [keyValid, replace_sub, Bool.and_eq_true, List.all_eq_true,
    Bool.not_eq_true', String.toList]
  constructor
  · simp [hdata]
  · intro c hc
    simp only [List.mem_map] at hc
    obtain ⟨c0, _, hc0⟩ := hc
    by_cases ha : allowedChar c0 = true
    · rw [← hc0]
      simp [ha]
    · rw [← hc0]
      simp [ha]
      decide

theorem appendUntilFreeAux_spec :
    ∀ (fuel : Nat) (k : String) (used : List String),
    (∃ i, i < fuel ∧ addUnderscores k i ∉ used) →
    ∃ i, appendUntilFreeAux fuel k used = addUnderscores k i ∧
      addUnderscores k i ∉ used ∧ ∀ j, j < i → addUnderscores k j ∈ used := by
  intro fuel
  induction fuel with
  | zero =>
    intro k used h
    obtain ⟨i, hi, _⟩ := h
    omega
  | succ fuel ih =>
    intro k used hex
    by_cases hk : k ∈ used
    · obtain ⟨i, hi, hfree⟩ := hex
      match i, hi, hfree with
      | 0, hi, hfree => exact absurd hk hfree
      | i' + 1, hi, hfree =>
        have hex' : ∃ i, i < fuel ∧ addUnderscores (k ++ "_") i ∉ used :=
          ⟨i', by omega, hfree⟩
        obtain ⟨i'', heq, hfree'', hmin⟩ := ih (k ++ "_") used hex'
        refine ⟨i'' + 1, ?_, hfree'', ?_⟩
        · rw [appendUntilFreeAux, if_pos hk]
          exact heq
        · intro j hj
          match j, hj with
          | 0, hj => exact hk
          | j' + 1, hj => exact hmin j' (by omega)
    · refine ⟨0, ?_, hk, by intro j hj; omega⟩
      rw [appendUntilFreeAux, if_neg hk]
      rfl

theorem exists_free_candidate (k : String) (used : List String) :
    ∃ i, i < used.length + 1 ∧ addUnderscores k i ∉ used := by
  by_contra h
  push_neg at h
  have hmem : ∀ i ∈ Finset.range (used.length + 1),
      addUnderscores k i ∈ used.toFinset := by
    intro i hi
    simp only [Finset.mem_range] at hi
    simpa using h i hi
  have hinj : Set.InjOn (addUnderscores k) (Finset.range (used.length + 1)) := by
    intro a _ b _ hab
    have hlen := congrArg String.length hab
    rw [addUnderscores_length, addUnderscores_length] at hlen
    omega
  have hcard := Finset.card_le_card_of_injOn (addUnderscores k) hmem hinj
  rw [Finset.card_range] at hcard
  have hle := used.toFinset_card_le
  omega

theorem appendUntilFree_spec (k : String) (used : List String) :
    ∃ i, appendUntilFree k used = addUnderscores k i ∧
      addUnderscores k i ∉ used ∧ ∀ j, j < i → addUnderscores k j ∈ used :=
  appendUntilFreeAux_spec (used.length + 1) k used (exists_free_candidate k used)

theorem appendUntilFree_not_mem (k : String) (used : List String) :
    appendUntilFree k used ∉ used := by
  obtain ⟨i, heq, hfree, _⟩ := appendUntilFree_spec k used
  rw [heq]
  exact hfree

theorem appendUntilFree_valid (k : String) (used : List String)
    (h : keyValid k = true) : keyValid (appendUntilFree k used) = true := by
  obtain ⟨i, heq, _, _⟩ := appendUntilFree_spec k used
  rw [heq]
  exact addUnderscores_valid i k h

theorem node_keys_of_cons (e : OwnerData) (rest : List OwnerData) (nid : Nat) :
    node_keys_of (e :: rest) nid =
      if e.node_id = nid then e.key :: node_keys_of rest nid
      else node_keys_of rest nid := by
  by_cases h : e.node_id = nid <;> simp [node_keys_of, List.filter_cons, h]

theorem fix_go_cons_valid (keysets : Nat → List String) (e : OwnerData)
    (rest : List OwnerData) (h : keyValid e.key = true) :
    fix_ownerdata_keys_go keysets (e :: rest) =
      e :: fix_ownerdata_keys_go keysets rest := by
  simp [fix_ownerdata_keys_go, h]

theorem fix_go_cons_invalid (keysets : Nat → List String) (e : OwnerData)
    (rest : List OwnerData) (h : ¬ keyValid e.key = true) :
    fix_ownerdata_keys_go keysets (e :: rest) =
      ⟨e.node_id, appendUntilFree (replace_sub e.key)
          ((keysets e.node_id).erase e.key)⟩ ::
        fix_ownerdata_keys_go
          (fun nid => if nid = e.node_id then
              appendUntilFree (replace_sub e.key)
                  ((keysets e.node_id).erase e.key) ::
                (keysets e.node_id).erase e.key
            else keysets nid) rest := by
  simp [fix_ownerdata_keys_go, h]

theorem fix_go_spec (rest : List OwnerData) :
    ∀ (keysets extra : Nat → List String),
    (∀ nid, (keysets nid).Perm (extra nid ++ node_keys_of rest nid)) →
    (∀ nid, (keysets nid).Nodup) →
    (∀ e ∈ rest, e.key ≠ "") →
    (∀ e ∈ fix_ownerdata_keys_go keysets rest, keyValid e.key = true) ∧
    (∀ nid, (node_keys_of (fix_ownerdata_keys_go keysets rest) nid).Nodup) ∧
    (∀ nid, ∀ k ∈ node_keys_of (fix_ownerdata_keys_go keysets rest) nid,
      k ∉ extra nid) := by
  induction rest with
  | nil =>
    intro keysets extra _ _ _
    refine ⟨?_, ?_, ?_⟩ <;> simp [fix_ownerdata_keys_go, node_keys_of]
  | cons e rest ih =>
    intro keysets extra hperm hnodup hne
    have hperm0 : (keysets e.node_id).Perm
        (extra e.node_id ++ e.key :: node_keys_of rest e.node_id) := by
      have h := hperm e.node_id
      rwa [node_keys_of_cons, if_pos rfl] at h
    have happ_nodup :
        (extra e.node_id ++ e.key :: node_keys_of rest e.node_id).Nodup :=
      hperm0.nodup_iff.mp (hnodup e.node_id)
    have hkey_notin_extra : e.key ∉ extra e.node_id := by
      intro hmem
      have hdisj := List.disjoint_of_nodup_append happ_nodup
      exact hdisj hmem (by simp)
    by_cases hv : keyValid e.key = true
    · -- the key matches the regex: the row is excluded from the queryset
      rw [fix_go_cons_valid keysets e rest hv]
      have hperm' : ∀ nid, ((keysets) nid).Perm
          ((fun nid => if nid = e.node_id then e.key :: extra nid
            else extra nid) nid ++ node_keys_of rest nid) := by
        intro nid
        by_cases h : nid = e.node_id
        · subst h
          simp only [if_pos rfl]
          exact hperm0.trans List.perm_middle
        · simp only [if_neg h]
          have hr := hperm nid
          rwa [node_keys_of_cons, if_neg (fun hh => h hh.symm)] at hr
      obtain ⟨A', B', C'⟩ := ih keysets _ hperm' hnodup
        (fun f hf => hne f (List.mem_cons_of_mem e hf))
      refine ⟨?_, ?_, ?_⟩
      · intro f hf
        rcases List.mem_cons.mp hf with h | h
        · subst h
          exact hv
        · exact A' f h
      · intro nid
        rw [node_keys_of_cons]
        by_cases h : e.node_id = nid
        · rw [if_pos h]
          subst h
          refine List.nodup_cons.mpr ⟨?_, B' e.node_id⟩
          intro hmem
          have hC := C' e.node_id e.key hmem
          simp only [eq_self_iff_true, if_true] at hC
          exact hC (List.mem_cons_self _ _)
        · rw [if_neg h]
          exact B' nid
      · intro nid k hk
        rw [node_keys_of_cons] at hk
        by_cases h : e.node_id = nid
        · subst h
          rw [if_pos rfl] at hk
          rcases List.mem_cons.mp hk with hh | hh
          · subst hh
            exact hkey_notin_extra
          · have hC := C' e.node_id k hh
            simp only [eq_self_iff_true, if_true] at hC
            intro hmem
            exact hC (List.mem_cons_of_mem _ hmem)
        · rw [if_neg h] at hk
          have hC := C' nid k hk
          have hns : ¬ (nid = e.node_id) := fun hh => h (Eq.symm hh)
          rw [if_neg hns] at hC
          exact hC
    · -- the key violates the regex: the row is rewritten
      rw [fix_go_cons_invalid keysets e rest hv]
      have hkey_mem : e.key ∈ keysets e.node_id :=
        hperm0.mem_iff.mpr (by simp)
      have herase : ((keysets e.node_id).erase e.key).Perm
          (extra e.node_id ++ node_keys_of rest e.node_id) := by
        have h1 := hperm0.erase e.key
        rwa [List.erase_append_right _ hkey_notin_extra,
          List.erase_cons_head] at h1
      have hused_nodup : ((keysets e.node_id).erase e.key).Nodup :=
        (hnodup e.node_id).erase _
      have hnk_valid : keyValid (appendUntilFree (replace_sub e.key)
          ((keysets e.node_id).erase e.key)) = true :=
        appendUntilFree_valid _ _
          (replace_sub_valid _ (hne e (List.mem_cons_self _ _)))
      have hnk_free : appendUntilFree (replace_sub e.key)
          ((keysets e.node_id).erase e.key) ∉
            (keysets e.node_id).erase e.key :=
        appendUntilFree_not_mem _ _
      have hnk_notin_extra : appendUntilFree (replace_sub e.key)
          ((keysets e.node_id).erase e.key) ∉ extra e.node_id := by
        intro hmem
        exact hnk_free (herase.mem_iff.mpr (List.mem_append_left _ hmem))
      have hperm' : ∀ nid,
          ((fun nid => if nid = e.node_id then
              appendUntilFree (replace_sub e.key)
                  ((keysets e.node_id).erase e.key) ::
                (keysets e.node_id).erase e.key
            else keysets nid) nid).Perm
            ((fun nid => if nid = e.node_id then
                appendUntilFree (replace_sub e.key)
                    ((keysets e.node_id).erase e.key) :: extra nid
              else extra nid) nid ++ node_keys_of rest nid) := by
        intro nid
        by_cases h : nid = e.node_id
        · subst h
          simp only [eq_self_iff_true, if_true]
          exact herase.cons _
        · simp only [if_neg h]
          have hr := hperm nid
          rwa [node_keys_of_cons, if_neg (fun hh => h hh.symm)] at hr
      have hnodup' : ∀ nid,
          ((fun nid => if nid = e.node_id then
              appendUntilFree (replace_sub e.key)
                  ((keysets e.node_id).erase e.key) ::
                (keysets e.node_id).erase e.key
            else keysets nid) nid).Nodup := by
        intro nid
        by_cases h : nid = e.node_id
        · simp only [if_pos h]
          exact List.nodup_cons.mpr ⟨hnk_free, hused_nodup⟩
        · simp only [if_neg h]
          exact hnodup nid
      obtain ⟨A', B', C'⟩ := ih _ _ hperm' hnodup'
        (fun f hf => hne f (List.mem_cons_of_mem e hf))
      refine ⟨?_, ?_, ?_⟩
      · intro f hf
        rcases List.mem_cons.mp hf with h | h
        · subst h
          exact hnk_valid
        · exact A' f h
      · intro nid
        rw [node_keys_of_cons]
        by_cases h : e.node_id = nid
        · rw [if_pos h]
          subst h
          refine List.nodup_cons.mpr ⟨?_, B' e.node_id⟩
          intro hmem
          have hC := C' e.node_id _ hmem
          simp only [eq_self_iff_true, if_true] at hC
          exact hC (List.mem_cons_self _ _)
        · rw [if_neg h]
          exact B' nid
      · intro nid k hk
        rw [node_keys_of_cons] at hk
        by_cases h : e.node_id = nid
        · subst h
          rw [if_pos rfl] at hk
          rcases List.mem_cons.mp hk with hh | hh
          · subst hh
            exact hnk_notin_extra
          · have hC := C' e.node_id k hh
            simp only [eq_self_iff_true, if_true] at hC
            intro hmem
            exact hC (List.mem_cons_of_mem _ hmem)
        · rw [if_neg h] at hk
          have hC := C' nid k hk
          have hns : ¬ (nid = e.node_id) := fun hh => h (Eq.symm hh)
          rw [if_neg hns] at hC
          exact hC

/-- C5: the migration's rewrite of a violating owner-metadata key first
replaces each disallowed character with `_` (`replace_sub`) and then keeps
appending trailing `_` exactly while the candidate still collides with
another key of the same node, stopping at the first non-colliding
candidate; in particular key `"bad key!"` colliding with existing key
`"bad_key_"` on node 1 is rewritten to `"bad_key__"`. -/
theorem ownerdata_key_rewrite_correct :
    (∀ (k : String) (used : List String), ∃ i,
      appendUntilFree k used = addUnderscores k i ∧
      appendUntilFree k used ∉ used ∧
      ∀ j, j < i → addUnderscores k j ∈ used) ∧
    replace_sub "bad key!" = "bad_key_" ∧
    fix_ownerdata_keys [⟨1, "bad key!"⟩, ⟨1, "bad_key_"⟩] =
      [⟨1, "bad_key__"⟩, ⟨1, "bad_key_"⟩] := by
  refine ⟨?_, by decide, by decide⟩
  intro k used
  obtain ⟨i, heq, hfree, hmin⟩ := appendUntilFree_spec k used
  refine ⟨i, heq, ?_, hmin⟩
  rw [heq]
  exact hfree

/-- Witness for C5's collision-loop characterisation at a concrete key and
key set. -/
theorem ownerdata_key_rewrite_correct_witness :
    ∃ i, appendUntilFree "a" ["a"] = addUnderscores "a" i ∧
      appendUntilFree "a" ["a"] ∉ ["a"] ∧
      ∀ j, j < i → addUnderscores "a" j ∈ ["a"] :=
  ownerdata_key_rewrite_correct.1 "a" ["a"]

/-- Counterexample to C6 as stated: on the initial owner-metadata state
with the single entry `(node 1, key "")`, the migration leaves the key
`""`, which does not match `^[\w.-]+$` (the regex requires at least one
character, and `REPLACE_RE.sub` followed by the collision loop maps `""` to
itself). -/
theorem fix_ownerdata_keys_claim_counterexample :
    fix_ownerdata_keys [⟨1, ""⟩] = [⟨1, ""⟩] ∧ keyValid "" = false := by
  decide

/-- C6 (amended): on any initial owner-metadata state whose keys are all
nonempty and pairwise distinct within each node, the migration leaves every
resulting key matching `^[\w.-]+$` and the keys of each node pairwise
distinct. -/
theorem fix_ownerdata_keys_invariant (entries : List OwnerData)
    (hnodup : ∀ nid, (node_keys_of entries nid).Nodup)
    (hne : ∀ e ∈ entries, e.key ≠ "") :
    (∀ e ∈ fix_ownerdata_keys entries, keyValid e.key = true) ∧
    (∀ nid, (node_keys_of (fix_ownerdata_keys entries) nid).Nodup) := by
  have h := fix_go_spec entries (node_keys_of entries) (fun _ => [])
    (fun nid => by simp) hnodup hne
  exact ⟨h.1, h.2.1⟩

/-- Witness for the amended C6 at a concrete two-node state containing
violating keys that rewrite to colliding candidates. -/
theorem fix_ownerdata_keys_invariant_witness :
    (∀ e ∈ fix_ownerdata_keys
        [⟨1, "bad key!"⟩, ⟨1, "bad&key!"⟩, ⟨2, "ok.key"⟩],
      keyValid e.key = true) ∧
    (∀ nid, (node_keys_of (fix_ownerdata_keys
        [⟨1, "bad key!"⟩, ⟨1, "bad&key!"⟩, ⟨2, "ok.key"⟩]) nid).Nodup) :=
  fix_ownerdata_keys_invariant [⟨1, "bad key!"⟩, ⟨1, "bad&key!"⟩, ⟨2, "ok.key"⟩]
    (by
      intro nid
      by_cases h1 : (1 : Nat) = nid <;> by_cases h2 : (2 : Nat) = nid <;>
        simp [node_keys_of, List.filter_cons, h1, h2])
    (by decide)

/- ---------------------------------------------------------------------
   C7: migration 0245 `bmc_power_parameters_index_hash`.
   --------------------------------------------------------------------- -/

/-- BMC row: the power driver type and the serialized power-parameters
payload (`power_parameters::text`). -/
structure BMC where
  power_type : String
  power_parameters : String
deriving DecidableEq, Repr

/-- Embedding of the partial unique index created by migration 0245:
`CREATE UNIQUE INDEX maasserver_bmc_power_type_parameters_idx ON
maasserver_bmc (power_type, md5(power_parameters::text)) WHERE (power_type
!= 'manual')`.  The hash is the parameter `md5`, so every theorem below
holds for every hash function and in particular for md5.  A table of BMC
rows satisfies the index when no two distinct rows covered by the partial
index (`power_type != 'manual'`) agree on both the power type and the hash
of the parameters. -/
def bmc_unique_index_ok (md5 : String → String) (rows : List BMC) : Prop :=
  List.Pairwise (fun a b =>
    a.power_type ≠ "manual" → b.power_type ≠ "manual" →
    ¬ (a.power_type = b.power_type ∧
      md5 a.power_parameters = md5 b.power_parameters)) rows

/-- Counterexample to C7 as stated: a table with two BMC rows that share
power type `"manual"` and the very same power-parameters content satisfies
the migration's unique index, because the index's `WHERE (power_type !=
'manual')` clause exempts such rows; the two rows therefore can coexist. -/
theorem bmc_unique_index_counterexample :
    bmc_unique_index_ok (fun s => s)
      [⟨"manual", "params"⟩, ⟨"manual", "params"⟩] := by
  simp [bmc_unique_index_ok]

/-- C7 (amended): the uniqueness constraint is enforced over the pair
(power type, content hash of the parameters), so after the migration two
BMC rows with the same power type and the same power-parameters content
cannot coexist unless that power type is `'manual'`, which the partial
index exempts. -/
theorem bmc_unique_index_amended (md5 : String → String) (rows : List BMC)
    (hok : bmc_unique_index_ok md5 rows) :
    List.Pairwise (fun a b => a.power_type ≠ "manual" →
      ¬ (a.power_type = b.power_type ∧
        a.power_parameters = b.power_parameters)) rows := by
  refine hok.imp ?_
  intro a b h
  intro ha hcol
  obtain ⟨heq, hcontent⟩ := hcol
  exact h ha (heq ▸ ha) ⟨heq, congrArg md5 hcontent⟩

/-- Witness for the amended C7 at a concrete table with two non-manual
rows of equal power type but different parameters content. -/
theorem bmc_unique_index_amended_witness :
    List.Pairwise (fun a b : BMC => a.power_type ≠ "manual" →
      ¬ (a.power_type = b.power_type ∧
        a.power_parameters = b.power_parameters))
      [⟨"ipmi", "a"⟩, ⟨"ipmi", "b"⟩] :=
  bmc_unique_index_amended (fun s => s) [⟨"ipmi", "a"⟩, ⟨"ipmi", "b"⟩]
    (by simp [bmc_unique_index_ok])
